import Mathlib

/-!
Shallow embedding of `src/hangman.c` (two near-identical programs in one
file, separated by a marker).  Bytes are modelled as `Nat`, an input line
as a `List Nat` of its bytes with the trailing newline stripped (the
`LineReader` contract), and end-of-input as exhaustion of the list of
lines.  The guess loop of the second program (`main`, lines 764-861) is
`roundLoop`; the outer difficulty/replay loop (lines 696-889) is
`sessionLoop`; the first program's guess loop (lines 248-364) is
`roundLoop1`.
-/

namespace Hangman

/-- C `isupper` on a byte: ASCII `A`..`Z`. -/
def isUpperC (c : Nat) : Bool := 65 ≤ c && c ≤ 90

/-- ASCII `a`..`z`, the lowercase range accepted by `isalpha` after `tolower`. -/
def isLowerC (c : Nat) : Bool := 97 ≤ c && c ≤ 122

/-- C `isalpha` on a byte (C locale): ASCII letter. -/
def isAlphaC (c : Nat) : Bool := isUpperC c || isLowerC c

/-- C `tolower` on a byte: maps `A`..`Z` to `a`..`z`, identity elsewhere. -/
def toLowerC (c : Nat) : Nat := if isUpperC c then c + 32 else c

/-- Bytes of a string literal, for concrete test inputs. -/
def strBytes (s : String) : List Nat := s.data.map Char.toNat

/-- The recoverable per-turn errors of the guess loop (spec section 7). -/
inductive GuessError where
  | invalidFormat
  | invalidLetter
  | duplicateGuess
deriving DecidableEq, Repr

/-- Validation of one raw guess line (`main`, lines 800-814 of the second
program): the line must be exactly one character (the C code checks
`strlen(inputBuffer) != 2` on the buffer still holding the newline),
then the character is lowercased with `tolower` and checked with `isalpha`. -/
def normalizeGuess (line : List Nat) : Except GuessError Nat :=
  if line.length ≠ 1 then .error .invalidFormat
  else
    let c := toLowerC (line.headD 0)
    if isAlphaC c then .ok c else .error .invalidLetter

/-- The mutable per-round state of the game loop: `secretWord`,
`displayWord`, `guessedLetters`, `incorrectGuesses`, `gameOver`,
`playerWon` (`main`, lines 742-760 of the second program). -/
structure RoundState where
  secretWord : List Nat
  displayWord : List Nat
  guessedLetters : List Nat
  incorrectGuesses : Nat
  gameOver : Bool
  playerWon : Bool
deriving DecidableEq, Repr

/-- Fresh round state: all-placeholder display (`'_'` is byte 95), no
guesses, no mistakes (`main`, lines 748-760 of the second program). -/
def initRound (w : List Nat) : RoundState :=
  { secretWord := w
    displayWord := List.replicate w.length 95
    guessedLetters := []
    incorrectGuesses := 0
    gameOver := false
    playerWon := false }

/-- The reveal loop (`main`, lines 832-837 of the second program): for every
index, if the secret byte equals the guess the display byte becomes the
guess, otherwise it is left alone. -/
def revealWord : List Nat → List Nat → Nat → List Nat
  | _, [], _ => []
  | [], d :: ds, _ => d :: ds
  | s :: ss, d :: ds, c => (if s = c then c else d) :: revealWord ss ds c

/-- Application of a validated, not-yet-guessed letter (`main`, lines
821-859 of the second program): append to `guessedLetters`, reveal matching
positions, count a mistake iff there was no match, then run the game-over
check: mistakes equal to the maximum means a loss, otherwise a display with
no `'_'` left means a win, otherwise the round continues. -/
def applyNewLetter (maxMistakes : Nat) (st : RoundState) (c : Nat) : RoundState :=
  let guessed' := st.guessedLetters ++ [c]
  let disp' := revealWord st.secretWord st.displayWord c
  let mist' := if c ∈ st.secretWord then st.incorrectGuesses else st.incorrectGuesses + 1
  if mist' = maxMistakes then
    { st with guessedLetters := guessed', displayWord := disp', incorrectGuesses := mist',
              gameOver := true, playerWon := false }
  else if 95 ∈ disp' then
    { st with guessedLetters := guessed', displayWord := disp', incorrectGuesses := mist' }
  else
    { st with guessedLetters := guessed', displayWord := disp', incorrectGuesses := mist',
              gameOver := true, playerWon := true }

/-- One turn of the second program's guess loop on one input line:
validation, duplicate check (`strchr(guessedLetters, currentGuess)`),
then application.  Error outcomes leave the state untouched. -/
def processTurn (maxMistakes : Nat) (st : RoundState) (line : List Nat) :
    RoundState × Option GuessError :=
  match normalizeGuess line with
  | .error e => (st, some e)
  | .ok c =>
    if c ∈ st.guessedLetters then (st, some .duplicateGuess)
    else (applyNewLetter maxMistakes st c, none)

/-- The guess loop guard: once `gameOver` is set no further line is
processed. -/
def step (maxMistakes : Nat) (st : RoundState) (line : List Nat) : RoundState :=
  if st.gameOver then st else (processTurn maxMistakes st line).1

/-- The second program's guess loop (`main`, lines 764-861) over a finite
list of remaining input lines.  Returns the final state, the unconsumed
input, and whether the round was abandoned because `fgets` hit end-of-input
(lines 785-798: `gameOver = 1` and the loop exits with no win/loss
determination).  On a validation or duplicate error, `pauseForUser`
consumes one further input line (lines 573-576). -/
def roundLoop (maxMistakes : Nat) : RoundState → List (List Nat) →
    RoundState × List (List Nat) × Bool
  | st, [] =>
    if st.gameOver then (st, [], false) else ({ st with gameOver := true }, [], true)
  | st, line :: rest =>
    if st.gameOver then (st, line :: rest, false)
    else
      match processTurn maxMistakes st line with
      | (st', none) => roundLoop maxMistakes st' rest
      | (_, some _) =>
        match rest with
        | [] => ({ st with gameOver := true }, [], true)
        | _ :: rest' => roundLoop maxMistakes st rest'

/-- C whitespace as skipped by `sscanf` with `%d`. -/
def isSpaceC (c : Nat) : Bool := c == 32 || (9 ≤ c && c ≤ 13)

/-- ASCII digit. -/
def isDigitC (c : Nat) : Bool := 48 ≤ c && c ≤ 57

/-- Value of a list of ASCII digit bytes. -/
def digitsToNat (ds : List Nat) : Nat := ds.foldl (fun a d => 10 * a + (d - 48)) 0

/-- `sscanf(buffer, "%d", &n)` on one line: skip leading whitespace, accept
an optional sign, then require at least one digit; trailing bytes are
ignored.  `none` models a failed conversion, which leaves the C variable at
its initial `-1`. -/
def parseCInt (line : List Nat) : Option Int :=
  let l1 := line.dropWhile fun c => isSpaceC c
  match l1 with
  | 43 :: rest =>
    let ds := rest.takeWhile fun c => isDigitC c
    if ds.isEmpty then none else some (digitsToNat ds : Nat)
  | 45 :: rest =>
    let ds := rest.takeWhile fun c => isDigitC c
    if ds.isEmpty then none else some (-(digitsToNat ds : Nat) : Int)
  | _ =>
    let ds := l1.takeWhile fun c => isDigitC c
    if ds.isEmpty then none else some (digitsToNat ds : Nat)

/-- Difficulty selection (`main`, lines 707-739 of the second program):
`1` is Easy (8), `2` is Medium (6), `3` is Hard (4); a failed parse (the
choice stays `-1`) or any other number falls into the `default` arm, which
selects Medium (6) without re-prompting. -/
def selectDifficulty (line : List Nat) : Nat :=
  match parseCInt line with
  | none => 6
  | some n => if n = 1 then 8 else if n = 2 then 6 else if n = 3 then 4 else 6

/-- The play-again test (`main`, lines 873-889): `tolower` of the first
byte of the response buffer must be `'y'` (121).  An empty trimmed line
leaves `'\n'` in the buffer's first byte, which is not `'y'`. -/
def yesResponse (line : List Nat) : Bool :=
  match line with
  | [] => false
  | c :: _ => toLowerC c == 121

/-- The guess loop never produces more leftover input than it was given. -/
theorem roundLoop_rest_le (m : Nat) (st : RoundState) (input : List (List Nat)) :
    ((roundLoop m st input).2.1).length ≤ input.length := by
  suffices h : ∀ (n : Nat) (st : RoundState) (input : List (List Nat)), input.length ≤ n →
      ((roundLoop m st input).2.1).length ≤ input.length from
    h input.length st input le_rfl
  intro n
  induction n with
  | zero =>
    intro st input h
    rw [List.eq_nil_of_length_eq_zero (Nat.le_zero.mp h)]
    simp only [roundLoop]
    split <;> simp
  | succ n ih =>
    intro st input h
    match input with
    | [] =>
      simp only [roundLoop]
      split <;> simp
    | [line] =>
      rw [roundLoop.eq_2]
      split
      · simp
      · rcases hpt : processTurn m st line with ⟨st', oe⟩
        cases oe with
        | none =>
          have := ih st' [] (by simp)
          dsimp only
          simp only [List.length_nil, Nat.le_zero] at this
          simp [this]
        | some e => simp
    | line :: l2 :: rest' =>
      rw [roundLoop.eq_3]
      split
      · simp
      · rcases hpt : processTurn m st line with ⟨st', oe⟩
        cases oe with
        | none =>
          have := ih st' (l2 :: rest') (by simp at h ⊢; omega)
          dsimp only
          simp only [List.length_cons] at h this ⊢
          omega
        | some e =>
          have := ih st rest' (by simp at h ⊢; omega)
          dsimp only
          simp only [List.length_cons] at h this ⊢
          omega

/-- The second program's session loop (`main`, lines 696-889): read a
difficulty line (end-of-input here ends the session with no round),
`pauseForUser` consumes one line, play one round with a freshly picked
secret word, then read the play-again line; end-of-input there or a
response whose first byte does not case-fold to `'y'` ends the session.
`pick k` is the secret word of the `k`-th round (the program draws
`wordList[rand() % loadedWordCount]`).  One entry per played round: its
final state and whether it was abandoned by end-of-input. -/
def sessionLoop (pick : Nat → List Nat) (k : Nat) (input : List (List Nat)) :
    List (RoundState × Bool) :=
  match input with
  | [] => []
  | dline :: rest =>
    let r := roundLoop (selectDifficulty dline) (initRound (pick k)) (rest.drop 1)
    if hr : r.2.1 = [] then [(r.1, r.2.2)]
    else
      if yesResponse (r.2.1.headD []) then
        (r.1, r.2.2) :: sessionLoop pick (k + 1) r.2.1.tail
      else [(r.1, r.2.2)]
termination_by input.length
decreasing_by
  rename_i dline _hyes
  have h1 := roundLoop_rest_le (selectDifficulty dline) (initRound (pick k)) (rest'.drop 1)
  simp only [List.length_drop, List.length_tail, List.length_cons] at h1 ⊢
  omega

/-- Application of a validated new letter in the FIRST embedded program
(`main`, lines 324-354 before the separator): reveal and mistake counting
only; the first program has no win detection and never touches
`playerWon`. -/
def applyNewLetter1 (st : RoundState) (c : Nat) : RoundState :=
  { st with guessedLetters := st.guessedLetters ++ [c],
            displayWord := revealWord st.secretWord st.displayWord c,
            incorrectGuesses :=
              if c ∈ st.secretWord then st.incorrectGuesses else st.incorrectGuesses + 1 }

/-- The FIRST embedded program's guess loop (`main`, lines 248-364 before
the separator).  Its game-over check (lines 358-363) compares the
`guessesRemaining` computed at the top of the iteration, i.e. the mistake
count BEFORE the current guess, against `MAX_INCORRECT_GUESSES` (6), and
runs only after a newly applied guess; `pauseForUser` of the first program
(lines 186-195) consumes two input lines. -/
def roundLoop1 : RoundState → List (List Nat) → RoundState × List (List Nat) × Bool
  | st, [] =>
    if st.gameOver then (st, [], false) else ({ st with gameOver := true }, [], true)
  | st, line :: rest =>
    if st.gameOver then (st, line :: rest, false)
    else
      match normalizeGuess line with
      | .error _ =>
        match rest with
        | [] => ({ st with gameOver := true }, [], true)
        | [_] => ({ st with gameOver := true }, [], true)
        | _ :: _ :: rest2 => roundLoop1 st rest2
      | .ok c =>
        if c ∈ st.guessedLetters then
          match rest with
          | [] => ({ st with gameOver := true }, [], true)
          | [_] => ({ st with gameOver := true }, [], true)
          | _ :: _ :: rest2 => roundLoop1 st rest2
        else
          let st' := applyNewLetter1 st c
          roundLoop1 (if 6 ≤ st.incorrectGuesses then { st' with gameOver := true } else st') rest

/-- The final message printed after the loop: win text iff `playerWon`. -/
inductive FinalMsg where
  | wonMsg
  | lostMsg
deriving DecidableEq, Repr

/-- Lines 369-373 (first program) and 867-871 (second program): the final
message is selected by the `playerWon` flag alone. -/
def finalMsg (st : RoundState) : FinalMsg :=
  if st.playerWon then .wonMsg else .lostMsg

theorem isLowerC_iff {c : Nat} : isLowerC c = true ↔ 97 ≤ c ∧ c ≤ 122 := by
  simp [isLowerC]

theorem isUpperC_iff {c : Nat} : isUpperC c = true ↔ 65 ≤ c ∧ c ≤ 90 := by
  simp [isUpperC]

theorem toLowerC_of_lower {c : Nat} (h : isLowerC c = true) : toLowerC c = c := by
  rw [isLowerC_iff] at h
  have hu : isUpperC c = false := by
    rw [Bool.eq_false_iff]
    intro hc
    rw [isUpperC_iff] at hc
    omega
  simp [toLowerC, hu]

theorem toLowerC_of_upper {c : Nat} (h : isUpperC c = true) : toLowerC c = c + 32 := by
  simp [toLowerC, h]

theorem isUpperC_toLowerC (c : Nat) : isUpperC (toLowerC c) = false := by
  rw [toLowerC]
  split <;> rw [Bool.eq_false_iff] <;> intro hc <;> rw [isUpperC_iff] at * <;> omega

theorem isAlphaC_toLowerC (c : Nat) : isAlphaC (toLowerC c) = isLowerC (toLowerC c) := by
  rw [isAlphaC, isUpperC_toLowerC, Bool.false_or]

theorem isAlphaC_of_lower {c : Nat} (h : isLowerC c = true) : isAlphaC c = true := by
  rw [isAlphaC, h, Bool.or_true]

theorem isLowerC_toLowerC_of_upper {c : Nat} (h : isUpperC c = true) :
    isLowerC (toLowerC c) = true := by
  rw [toLowerC_of_upper h, isLowerC_iff]
  rw [isUpperC_iff] at h
  omega

/-- `normalizeGuess` on a one-character line. -/
theorem normalizeGuess_single (c : Nat) :
    normalizeGuess [c] =
      if isAlphaC (toLowerC c) then .ok (toLowerC c) else .error .invalidLetter := by
  rw [normalizeGuess]
  simp

/-- A lowercase letter passes validation unchanged. -/
theorem normalizeGuess_of_lower {c : Nat} (h : isLowerC c = true) :
    normalizeGuess [c] = .ok c := by
  rw [normalizeGuess_single, toLowerC_of_lower h, isAlphaC_of_lower h, if_pos rfl]

/-- Whatever `normalizeGuess` accepts is a lowercase ASCII letter. -/
theorem normalizeGuess_ok_lower {line : List Nat} {c : Nat}
    (h : normalizeGuess line = .ok c) : isLowerC c = true := by
  rw [normalizeGuess] at h
  split at h
  · exact absurd h (by simp)
  · dsimp only at h
    split at h
    · rename_i halpha
      rw [isAlphaC_toLowerC] at halpha
      cases h
      exact halpha
    · exact absurd h (by simp)

theorem revealWord_length (s d : List Nat) (c : Nat) :
    (revealWord s d c).length = d.length := by
  induction s generalizing d with
  | nil => cases d <;> simp [revealWord]
  | cons x ss ih => cases d <;> simp [revealWord, ih]

theorem revealWord_getD (s : List Nat) (c : Nat) :
    ∀ (d : List Nat), d.length = s.length → ∀ i, i < s.length →
      (revealWord s d c).getD i 0 =
        if s.getD i 0 = c then c else d.getD i 0 := by
  induction s with
  | nil => intro d _ i hi; simp at hi
  | cons x ss ih =>
    intro d hd i hi
    match d with
    | [] => simp at hd
    | y :: ds =>
      rw [revealWord]
      match i with
      | 0 => simp
      | j + 1 =>
        simp only [List.getD_cons_succ]
        exact ih ds (by simpa using hd) j (by simpa using hi)

theorem revealWord_of_not_mem {s : List Nat} {c : Nat} (h : c ∉ s) :
    ∀ d : List Nat, revealWord s d c = d := by
  induction s with
  | nil => intro d; cases d <;> rw [revealWord]
  | cons x ss ih =>
    intro d
    match d with
    | [] => rw [revealWord]
    | y :: ds =>
      rw [revealWord]
      have hx : x ≠ c := fun hxc => h (hxc ▸ List.mem_cons_self x ss)
      rw [if_neg hx, ih (fun hc => h (List.mem_cons_of_mem x hc)) ds]

theorem getD_replicate_95 : ∀ (n i : Nat), i < n →
    (List.replicate n (95 : Nat)).getD i 0 = 95 := by
  intro n
  induction n with
  | zero => intro i hi; omega
  | succ n ih =>
    intro i hi
    rw [List.replicate_succ]
    match i with
    | 0 => simp
    | j + 1 =>
      rw [List.getD_cons_succ]
      exact ih j (by omega)

theorem mem_replicate_95 {n : Nat} (h : 0 < n) : 95 ∈ List.replicate n (95 : Nat) := by
  rw [List.mem_replicate]
  omega

theorem applyNewLetter_secret (m : Nat) (st : RoundState) (c : Nat) :
    (applyNewLetter m st c).secretWord = st.secretWord := by
  rw [applyNewLetter]
  repeat' split
  all_goals rfl

theorem applyNewLetter_guessed (m : Nat) (st : RoundState) (c : Nat) :
    (applyNewLetter m st c).guessedLetters = st.guessedLetters ++ [c] := by
  rw [applyNewLetter]
  repeat' split
  all_goals rfl

theorem applyNewLetter_display (m : Nat) (st : RoundState) (c : Nat) :
    (applyNewLetter m st c).displayWord = revealWord st.secretWord st.displayWord c := by
  rw [applyNewLetter]
  repeat' split
  all_goals rfl

theorem applyNewLetter_mist (m : Nat) (st : RoundState) (c : Nat) :
    (applyNewLetter m st c).incorrectGuesses =
      if c ∈ st.secretWord then st.incorrectGuesses else st.incorrectGuesses + 1 := by
  rw [applyNewLetter]
  repeat' split
  all_goals rfl

/-- The loss branch of the game-over check (lines 850-853). -/
theorem applyNewLetter_lost {m : Nat} {st : RoundState} {c : Nat}
    (h : (if c ∈ st.secretWord then st.incorrectGuesses else st.incorrectGuesses + 1) = m) :
    (applyNewLetter m st c).gameOver = true ∧ (applyNewLetter m st c).playerWon = false := by
  rw [applyNewLetter, if_pos h]
  exact ⟨rfl, rfl⟩

/-- The still-in-progress branch of the game-over check (line 855, `'_'`
still present). -/
theorem applyNewLetter_cont {m : Nat} {st : RoundState} {c : Nat}
    (h : (if c ∈ st.secretWord then st.incorrectGuesses else st.incorrectGuesses + 1) ≠ m)
    (h95 : 95 ∈ revealWord st.secretWord st.displayWord c) :
    (applyNewLetter m st c).gameOver = st.gameOver ∧
      (applyNewLetter m st c).playerWon = st.playerWon := by
  rw [applyNewLetter, if_neg h, if_pos h95]
  exact ⟨rfl, rfl⟩

/-- The win branch of the game-over check (lines 855-858). -/
theorem applyNewLetter_won {m : Nat} {st : RoundState} {c : Nat}
    (h : (if c ∈ st.secretWord then st.incorrectGuesses else st.incorrectGuesses + 1) ≠ m)
    (h95 : 95 ∉ revealWord st.secretWord st.displayWord c) :
    (applyNewLetter m st c).gameOver = true ∧ (applyNewLetter m st c).playerWon = true := by
  rw [applyNewLetter, if_neg h, if_neg h95]
  exact ⟨rfl, rfl⟩

/-- The reachable-state invariant of one round of the second program. -/
structure Inv (m : Nat) (st : RoundState) : Prop where
  lenEq : st.displayWord.length = st.secretWord.length
  dispEq : ∀ i, i < st.secretWord.length →
    st.displayWord.getD i 0 =
      if st.secretWord.getD i 0 ∈ st.guessedLetters then st.secretWord.getD i 0 else 95
  nodup : st.guessedLetters.Nodup
  lower : ∀ c ∈ st.guessedLetters, isLowerC c = true
  notOver : st.gameOver = false →
    st.playerWon = false ∧ (0 < m → st.incorrectGuesses < m) ∧
      (st.secretWord ≠ [] → 95 ∈ st.displayWord)
  wonClean : st.playerWon = true → 95 ∉ st.displayWord

theorem inv_init (m : Nat) (w : List Nat) : Inv m (initRound w) := by
  refine ⟨?_, ?_, ?_, ?_, ?_, ?_⟩
  · simp [initRound]
  · intro i hi
    show (List.replicate w.length 95).getD i 0 =
      if w.getD i 0 ∈ ([] : List Nat) then w.getD i 0 else 95
    rw [if_neg (List.not_mem_nil _)]
    exact getD_replicate_95 w.length i hi
  · simp [initRound]
  · simp [initRound]
  · intro _
    refine ⟨rfl, fun hm => hm, fun hw => ?_⟩
    exact mem_replicate_95 (List.length_pos.mpr hw)
  · intro h
    simp [initRound] at h

theorem inv_applyNewLetter {m : Nat} {st : RoundState} {c : Nat}
    (hInv : Inv m st) (hGO : st.gameOver = false) (hc : isLowerC c = true)
    (hnew : c ∉ st.guessedLetters) : Inv m (applyNewLetter m st c) := by
  refine ⟨?_, ?_, ?_, ?_, ?_, ?_⟩
  · rw [applyNewLetter_display, applyNewLetter_secret, revealWord_length]
    exact hInv.lenEq
  · intro i hi
    rw [applyNewLetter_secret] at hi ⊢
    rw [applyNewLetter_display, applyNewLetter_guessed]
    rw [revealWord_getD st.secretWord c st.displayWord hInv.lenEq i hi]
    by_cases hsc : st.secretWord.getD i 0 = c
    · rw [if_pos hsc, if_pos (by rw [hsc]; exact List.mem_append_right _ (List.mem_singleton_self c))]
      exact hsc.symm
    · rw [if_neg hsc, hInv.dispEq i hi]
      have : (st.secretWord.getD i 0 ∈ st.guessedLetters ++ [c]) ↔
          st.secretWord.getD i 0 ∈ st.guessedLetters := by
        simp only [List.mem_append, List.mem_singleton]
        exact or_iff_left hsc
      by_cases hm : st.secretWord.getD i 0 ∈ st.guessedLetters
      · rw [if_pos hm, if_pos (this.mpr hm)]
      · rw [if_neg hm, if_neg (fun hx => hm (this.mp hx))]
  · rw [applyNewLetter_guessed]
    exact hInv.nodup.append (List.nodup_singleton c)
      (fun a ha hb => hnew ((List.mem_singleton.mp hb) ▸ ha))
  · rw [applyNewLetter_guessed]
    intro x hx
    rcases List.mem_append.mp hx with hold | hnewx
    · exact hInv.lower x hold
    · rw [List.mem_singleton.mp hnewx]
      exact hc
  · intro hgo'
    by_cases hmist :
        (if c ∈ st.secretWord then st.incorrectGuesses else st.incorrectGuesses + 1) = m
    · rw [(applyNewLetter_lost hmist).1] at hgo'
      exact absurd hgo' (by simp)
    · by_cases h95 : 95 ∈ revealWord st.secretWord st.displayWord c
      · refine ⟨?_, ?_, fun _ => ?_⟩
        · rw [(applyNewLetter_cont hmist h95).2]
          exact (hInv.notOver hGO).1
        · intro hm
          rw [applyNewLetter_mist]
          have := (hInv.notOver hGO).2.1 hm
          by_cases hcs : c ∈ st.secretWord
          · rw [if_pos hcs] at hmist ⊢; omega
          · rw [if_neg hcs] at hmist ⊢; omega
        · rw [applyNewLetter_display]
          exact h95
      · rw [(applyNewLetter_won hmist h95).1] at hgo'
        exact absurd hgo' (by simp)
  · intro hpw
    rw [applyNewLetter_display]
    by_cases hmist :
        (if c ∈ st.secretWord then st.incorrectGuesses else st.incorrectGuesses + 1) = m
    · rw [(applyNewLetter_lost hmist).2] at hpw
      exact absurd hpw (by simp)
    · by_cases h95 : 95 ∈ revealWord st.secretWord st.displayWord c
      · rw [(applyNewLetter_cont hmist h95).2] at hpw
        exact absurd (hpw ▸ (hInv.notOver hGO).1) (by simp)
      · exact h95

theorem processTurn_secret (m : Nat) (st : RoundState) (line : List Nat) :
    (processTurn m st line).1.secretWord = st.secretWord := by
  rw [processTurn]
  cases hn : normalizeGuess line with
  | error e => rfl
  | ok c =>
    dsimp only
    split
    · rfl
    · exact applyNewLetter_secret m st c

theorem inv_processTurn {m : Nat} {st : RoundState} (line : List Nat)
    (hInv : Inv m st) (hGO : st.gameOver = false) : Inv m (processTurn m st line).1 := by
  rw [processTurn]
  cases hn : normalizeGuess line with
  | error e => exact hInv
  | ok c =>
    dsimp only
    split
    · exact hInv
    · exact inv_applyNewLetter hInv hGO (normalizeGuess_ok_lower hn) (by assumption)

theorem step_secret (m : Nat) (st : RoundState) (line : List Nat) :
    (step m st line).secretWord = st.secretWord := by
  rw [step]
  split
  · rfl
  · exact processTurn_secret m st line

theorem inv_step {m : Nat} {st : RoundState} (line : List Nat) (hInv : Inv m st) :
    Inv m (step m st line) := by
  rw [step]
  split
  · exact hInv
  · rename_i h
    exact inv_processTurn line hInv (by revert h; cases st.gameOver <;> simp)

theorem inv_foldl (m : Nat) (lines : List (List Nat)) :
    ∀ st : RoundState, Inv m st → Inv m (List.foldl (step m) st lines) := by
  induction lines with
  | nil => intro st h; exact h
  | cons l ls ih => intro st h; exact ih (step m st l) (inv_step l h)

theorem foldl_secret (m : Nat) (lines : List (List Nat)) :
    ∀ st : RoundState, (List.foldl (step m) st lines).secretWord = st.secretWord := by
  induction lines with
  | nil => intro st; rfl
  | cons l ls ih => intro st; rw [List.foldl_cons, ih, step_secret]

/-- Setting `gameOver` on end-of-input (lines 785-798) preserves the
invariant. -/
theorem inv_setGameOver {m : Nat} {st : RoundState} (hInv : Inv m st)
    (hGO : st.gameOver = false) : Inv m { st with gameOver := true } := by
  refine ⟨hInv.lenEq, hInv.dispEq, hInv.nodup, hInv.lower, ?_, ?_⟩
  · intro h
    exact absurd h (by simp)
  · intro hpw
    exact absurd (hpw ▸ (hInv.notOver hGO).1) (by simp)

/-- Combined facts about one run of the second program's guess loop: the
invariant is preserved, the secret word never changes, and an abandoned
round (end-of-input) has consumed all input without establishing either
the win or the loss condition. -/
theorem roundLoop_facts (m : Nat) (st : RoundState) (input : List (List Nat))
    (hInv : Inv m st) :
    Inv m (roundLoop m st input).1 ∧
    (roundLoop m st input).1.secretWord = st.secretWord ∧
    ((roundLoop m st input).2.2 = true →
      (roundLoop m st input).2.1 = [] ∧
      (roundLoop m st input).1.gameOver = true ∧
      (roundLoop m st input).1.playerWon = false ∧
      (0 < m → (roundLoop m st input).1.incorrectGuesses < m)) := by
  suffices h : ∀ (n : Nat) (st : RoundState) (input : List (List Nat)), input.length ≤ n →
      Inv m st →
      Inv m (roundLoop m st input).1 ∧
      (roundLoop m st input).1.secretWord = st.secretWord ∧
      ((roundLoop m st input).2.2 = true →
        (roundLoop m st input).2.1 = [] ∧
        (roundLoop m st input).1.gameOver = true ∧
        (roundLoop m st input).1.playerWon = false ∧
        (0 < m → (roundLoop m st input).1.incorrectGuesses < m)) from
    h input.length st input le_rfl hInv
  intro n
  induction n with
  | zero =>
    intro st input h hInv
    rw [List.eq_nil_of_length_eq_zero (Nat.le_zero.mp h)]
    simp only [roundLoop]
    by_cases hgo : st.gameOver
    · rw [if_pos hgo]
      exact ⟨hInv, rfl, by simp⟩
    · rw [if_neg hgo]
      have hgo' : st.gameOver = false := by revert hgo; cases st.gameOver <;> simp
      refine ⟨inv_setGameOver hInv hgo', rfl, fun _ => ⟨rfl, rfl, ?_, ?_⟩⟩
      · exact (hInv.notOver hgo').1
      · exact (hInv.notOver hgo').2.1
  | succ n ih =>
    intro st input h hInv
    match input with
    | [] =>
      simp only [roundLoop]
      by_cases hgo : st.gameOver
      · rw [if_pos hgo]
        exact ⟨hInv, rfl, by simp⟩
      · rw [if_neg hgo]
        have hgo' : st.gameOver = false := by revert hgo; cases st.gameOver <;> simp
        refine ⟨inv_setGameOver hInv hgo', rfl, fun _ => ⟨rfl, rfl, ?_, ?_⟩⟩
        · exact (hInv.notOver hgo').1
        · exact (hInv.notOver hgo').2.1
    | [line] =>
      rw [roundLoop.eq_2]
      by_cases hgo : st.gameOver
      · rw [if_pos hgo]
        exact ⟨hInv, rfl, by simp⟩
      · rw [if_neg hgo]
        have hgo' : st.gameOver = false := by revert hgo; cases st.gameOver <;> simp
        rcases hpt : processTurn m st line with ⟨st', oe⟩
        cases oe with
        | none =>
          have hst' : Inv m st' := by
            have := inv_processTurn line hInv hgo'
            rw [hpt] at this
            exact this
          have hsec : st'.secretWord = st.secretWord := by
            have := processTurn_secret m st line
            rw [hpt] at this
            exact this
          have := ih st' [] (by simp) hst'
          exact ⟨this.1, by rw [this.2.1, hsec], this.2.2⟩
        | some e =>
          refine ⟨inv_setGameOver hInv hgo', rfl, fun _ => ⟨rfl, rfl, ?_, ?_⟩⟩
          · exact (hInv.notOver hgo').1
          · exact (hInv.notOver hgo').2.1
    | line :: l2 :: rest2 =>
      rw [roundLoop.eq_3]
      by_cases hgo : st.gameOver
      · rw [if_pos hgo]
        exact ⟨hInv, rfl, by simp⟩
      · rw [if_neg hgo]
        have hgo' : st.gameOver = false := by revert hgo; cases st.gameOver <;> simp
        rcases hpt : processTurn m st line with ⟨st', oe⟩
        cases oe with
        | none =>
          have hst' : Inv m st' := by
            have := inv_processTurn line hInv hgo'
            rw [hpt] at this
            exact this
          have hsec : st'.secretWord = st.secretWord := by
            have := processTurn_secret m st line
            rw [hpt] at this
            exact this
          have := ih st' (l2 :: rest2) (by simp at h ⊢; omega) hst'
          exact ⟨this.1, by rw [this.2.1, hsec], this.2.2⟩
        | some e =>
          have := ih st rest2 (by simp at h ⊢; omega) hInv
          exact this

/-- One miss step: a lowercase letter not in the word and not yet guessed
reveals nothing, counts one mistake, and trips the loss check exactly when
the mistake count reaches the maximum. -/
theorem step_miss {m : Nat} {w gs : List Nat} {c : Nat} (hw : w ≠ [])
    (hc : isLowerC c = true) (hcw : c ∉ w) (hcg : c ∉ gs) (hlt : gs.length < m) :
    step m
      { secretWord := w, displayWord := List.replicate w.length 95, guessedLetters := gs,
        incorrectGuesses := gs.length, gameOver := gs.length == m, playerWon := false } [c] =
      { secretWord := w, displayWord := List.replicate w.length 95,
        guessedLetters := gs ++ [c], incorrectGuesses := gs.length + 1,
        gameOver := gs.length + 1 == m, playerWon := false } := by
  have hgof : (gs.length == m) = false := beq_eq_false_iff_ne.mpr (by omega)
  rw [step]
  rw [if_neg (by simp [hgof])]
  rw [processTurn, normalizeGuess_of_lower hc]
  dsimp only
  rw [if_neg hcg]
  rw [applyNewLetter]
  simp only [hcw, if_false, List.mem_singleton]
  rw [revealWord_of_not_mem hcw]
  by_cases hfin : gs.length + 1 = m
  · rw [if_pos hfin]
    rw [beq_iff_eq.mpr hfin]
  · rw [if_neg hfin, if_pos (mem_replicate_95 (List.length_pos.mpr hw))]
    rw [beq_eq_false_iff_ne.mpr hfin, hgof]

/-- Folding a sequence of distinct lowercase misses from a fresh round:
closed form of the state after any prefix of at most `m` misses. -/
theorem missFold (w : List Nat) (m : Nat) (hm : 0 < m) (hw : w ≠ []) :
    ∀ gs : List Nat, gs.Nodup → (∀ c ∈ gs, isLowerC c = true ∧ c ∉ w) → gs.length ≤ m →
    List.foldl (step m) (initRound w) (gs.map fun c => [c]) =
      { secretWord := w, displayWord := List.replicate w.length 95, guessedLetters := gs,
        incorrectGuesses := gs.length, gameOver := gs.length == m, playerWon := false } := by
  intro gs
  induction gs using List.reverseRecOn with
  | nil =>
    intro _ _ _
    simp only [List.map_nil, List.foldl_nil, List.length_nil]
    rw [beq_eq_false_iff_ne.mpr (by omega : (0 : Nat) ≠ m)]
    rfl
  | append_singleton gs c ihg =>
    intro hnd hall hlen
    have hsplit := List.nodup_append.mp hnd
    have hcg : c ∉ gs := fun hcmem => hsplit.2.2 hcmem (List.mem_singleton_self c)
    have hall' : ∀ x ∈ gs, isLowerC x = true ∧ x ∉ w :=
      fun x hx => hall x (List.mem_append_left _ hx)
    have hc := hall c (List.mem_append_right _ (List.mem_singleton_self c))
    have hlt : gs.length < m := by
      rw [List.length_append, List.length_singleton] at hlen
      omega
    rw [List.map_append, List.foldl_append, ihg hsplit.1 hall' (by omega)]
    simp only [List.map_cons, List.map_nil, List.foldl_cons, List.foldl_nil]
    rw [step_miss hw hc.1 hc.2 hcg hlt]
    rw [List.length_append, List.length_singleton]

/-- At most 26 pairwise-distinct lowercase ASCII letters exist. -/
theorem nodup_lower_length_le (l : List Nat) (hn : l.Nodup)
    (hl : ∀ c ∈ l, isLowerC c = true) : l.length ≤ 26 := by
  have hsub : l.toFinset ⊆ Finset.Icc 97 122 := by
    intro x hx
    rw [List.mem_toFinset] at hx
    rw [Finset.mem_Icc]
    exact isLowerC_iff.mp (hl x hx)
  have hcard := Finset.card_le_card hsub
  rw [List.toFinset_card_of_nodup hn] at hcard
  simpa [Nat.card_Icc] using hcard

theorem applyNewLetter1_playerWon (st : RoundState) (c : Nat) :
    (applyNewLetter1 st c).playerWon = st.playerWon := rfl

/-- The first program's loop never changes `playerWon`: no branch assigns
it (the win detection of Step 8 was never implemented). -/
theorem roundLoop1_playerWon (st : RoundState) (input : List (List Nat)) :
    (roundLoop1 st input).1.playerWon = st.playerWon := by
  suffices H : ∀ (n : Nat) (st : RoundState) (input : List (List Nat)), input.length ≤ n →
      (roundLoop1 st input).1.playerWon = st.playerWon from H input.length st input le_rfl
  intro n
  induction n with
  | zero =>
    intro st input hle
    rw [List.eq_nil_of_length_eq_zero (Nat.le_zero.mp hle), roundLoop1.eq_1]
    split <;> rfl
  | succ n ih =>
    intro st input hle
    match input with
    | [] =>
      rw [roundLoop1.eq_1]
      split <;> rfl
    | [line] =>
      rw [roundLoop1.eq_2]
      split
      · rfl
      · cases hn : normalizeGuess line with
        | error e => rfl
        | ok c =>
          dsimp only
          split
          · rfl
          · rw [ih _ [] (by simp)]
            split <;> rw [applyNewLetter1_playerWon]
    | [line, l2] =>
      rw [roundLoop1.eq_3]
      split
      · rfl
      · cases hn : normalizeGuess line with
        | error e => rfl
        | ok c =>
          dsimp only
          split
          · rfl
          · rw [ih _ [l2] (by simp at hle ⊢; omega)]
            split <;> rw [applyNewLetter1_playerWon]
    | line :: l2 :: l3 :: rest2 =>
      rw [roundLoop1.eq_4]
      split
      · rfl
      · cases hn : normalizeGuess line with
        | error e =>
          exact ih st rest2 (by simp at hle ⊢; omega)
        | ok c =>
          dsimp only
          split
          · exact ih st rest2 (by simp at hle ⊢; omega)
          · rw [ih _ (l2 :: l3 :: rest2) (by simp at hle ⊢; omega)]
            split <;> rw [applyNewLetter1_playerWon]

/-- Every difficulty tier allows at least one mistake (8, 6 or 4). -/
theorem selectDifficulty_pos (line : List Nat) : 0 < selectDifficulty line := by
  cases hp : parseCInt line with
  | none =>
    rw [selectDifficulty, hp]
    decide
  | some n =>
    rw [selectDifficulty, hp]
    dsimp only
    split_ifs <;> omega

theorem getD_mem_of_lt {l : List Nat} {i : Nat} (h : i < l.length) : l.getD i 0 ∈ l := by
  induction l generalizing i with
  | nil => simp at h
  | cons x xs ih =>
    match i with
    | 0 => simp
    | j + 1 =>
      rw [List.getD_cons_succ]
      exact List.mem_cons_of_mem _ (ih (by simpa using h))

/-- C1: for an accepted new guess the transition is decided by checking the
loss condition (`incorrectGuesses == maxIncorrectGuesses`) first and the
win condition (no `'_'` left in the display) second, otherwise the round
stays in progress; and from a fresh round, a sequence of `m` distinct
lowercase letters that do not occur in the (non-empty) secret word makes
the round Lost exactly at the `m`-th miss and not before. -/
theorem claim1_transition_order_and_loss_sequence :
    (∀ (m : Nat) (st : RoundState) (c : Nat),
      ((applyNewLetter m st c).incorrectGuesses = m →
        (applyNewLetter m st c).gameOver = true ∧ (applyNewLetter m st c).playerWon = false) ∧
      ((applyNewLetter m st c).incorrectGuesses ≠ m →
        95 ∉ (applyNewLetter m st c).displayWord →
        (applyNewLetter m st c).gameOver = true ∧ (applyNewLetter m st c).playerWon = true) ∧
      ((applyNewLetter m st c).incorrectGuesses ≠ m →
        95 ∈ (applyNewLetter m st c).displayWord →
        (applyNewLetter m st c).gameOver = st.gameOver ∧
          (applyNewLetter m st c).playerWon = st.playerWon)) ∧
    (∀ (w : List Nat) (m : Nat) (gs : List Nat), 0 < m → w ≠ [] → gs.Nodup →
      (∀ c ∈ gs, isLowerC c = true ∧ c ∉ w) → gs.length = m →
      (List.foldl (step m) (initRound w) (gs.map fun c => [c])).gameOver = true ∧
      (List.foldl (step m) (initRound w) (gs.map fun c => [c])).playerWon = false ∧
      (∀ k, k < m →
        (List.foldl (step m) (initRound w) ((gs.take k).map fun c => [c])).gameOver = false)) := by
  constructor
  · intro m st c
    have hmi := applyNewLetter_mist m st c
    have hdi := applyNewLetter_display m st c
    refine ⟨?_, ?_, ?_⟩
    · intro h
      rw [hmi] at h
      exact applyNewLetter_lost h
    · intro h h95
      rw [hmi] at h
      rw [hdi] at h95
      exact applyNewLetter_won h h95
    · intro h h95
      rw [hmi] at h
      rw [hdi] at h95
      exact applyNewLetter_cont h h95
  · intro w m gs hm hw hnd hall hlen
    have hfull := missFold w m hm hw gs hnd hall (le_of_eq hlen)
    refine ⟨?_, ?_, ?_⟩
    · rw [hfull]
      exact beq_iff_eq.mpr hlen
    · rw [hfull]
    · intro k hk
      have htk := missFold w m hm hw (gs.take k)
        (List.Nodup.sublist (List.take_sublist k gs) hnd)
        (fun x hx => hall x (List.take_subset k gs hx))
        (by rw [List.length_take]; omega)
      rw [htk]
      show ((gs.take k).length == m) = false
      rw [List.length_take, hlen, Nat.min_eq_left (le_of_lt hk)]
      exact beq_eq_false_iff_ne.mpr (by omega)

/-- Witness for C1 at the spec scenario: secret `"dog"`, two allowed
mistakes, misses `x` then `y`: lost after the second miss, not after the
first. -/
theorem claim1_witness :
    (List.foldl (step 2) (initRound (strBytes "dog")) ([120, 121].map fun c => [c])).gameOver
        = true ∧
    (List.foldl (step 2) (initRound (strBytes "dog"))
        (([120, 121].take 1).map fun c => [c])).gameOver = false := by
  have hb := claim1_transition_order_and_loss_sequence.2 (strBytes "dog") 2 [120, 121]
    (by decide) (by decide) (by decide) (by decide) (by decide)
  exact ⟨hb.1, hb.2.2 1 (by decide)⟩

/-- C2: applying a validated new letter appends it to the guessed letters,
reveals exactly the positions where the secret has that byte, adds one
mistake when there is no match, and leaves the mistake count unchanged
when there is at least one match. -/
theorem claim2_apply_guess_effects (m : Nat) (st : RoundState) (c : Nat)
    (hlen : st.displayWord.length = st.secretWord.length) :
    (applyNewLetter m st c).guessedLetters = st.guessedLetters ++ [c] ∧
    (∀ i, i < st.secretWord.length →
      (applyNewLetter m st c).displayWord.getD i 0 =
        if st.secretWord.getD i 0 = c then c else st.displayWord.getD i 0) ∧
    (c ∉ st.secretWord → (applyNewLetter m st c).incorrectGuesses = st.incorrectGuesses + 1) ∧
    (c ∈ st.secretWord → (applyNewLetter m st c).incorrectGuesses = st.incorrectGuesses) := by
  refine ⟨applyNewLetter_guessed m st c, ?_, ?_, ?_⟩
  · intro i hi
    rw [applyNewLetter_display]
    exact revealWord_getD st.secretWord c st.displayWord hlen i hi
  · intro hc
    rw [applyNewLetter_mist, if_neg hc]
  · intro hc
    rw [applyNewLetter_mist, if_pos hc]

/-- Witness for C2 on secret `"cat"`: guessing `a` reveals position 1 and
charges no mistake; guessing `x` charges exactly one mistake. -/
theorem claim2_witness :
    (applyNewLetter 6 (initRound (strBytes "cat")) 97).guessedLetters = [97] ∧
    (applyNewLetter 6 (initRound (strBytes "cat")) 97).displayWord.getD 1 0 = 97 ∧
    (applyNewLetter 6 (initRound (strBytes "cat")) 120).incorrectGuesses = 1 := by
  have h1 := claim2_apply_guess_effects 6 (initRound (strBytes "cat")) 97 (by decide)
  have h2 := claim2_apply_guess_effects 6 (initRound (strBytes "cat")) 120 (by decide)
  refine ⟨by rw [h1.1]; rfl, ?_, ?_⟩
  · rw [h1.2.1 1 (by decide)]
    decide
  · rw [h2.2.2.1 (by decide)]
    decide

/-- C3: in every state reachable from a fresh round over a lowercase
secret, the display has the secret's length and shows the true letter at a
position exactly when that letter has been guessed, every other position
being the placeholder. -/
theorem claim3_reveal_pattern_invariant (w : List Nat) (m : Nat) (lines : List (List Nat))
    (hW : ∀ c ∈ w, isLowerC c = true) :
    (List.foldl (step m) (initRound w) lines).secretWord = w ∧
    (List.foldl (step m) (initRound w) lines).displayWord.length = w.length ∧
    (∀ i, i < w.length →
      ((List.foldl (step m) (initRound w) lines).displayWord.getD i 0 = w.getD i 0 ↔
        w.getD i 0 ∈ (List.foldl (step m) (initRound w) lines).guessedLetters) ∧
      (w.getD i 0 ∉ (List.foldl (step m) (initRound w) lines).guessedLetters →
        (List.foldl (step m) (initRound w) lines).displayWord.getD i 0 = 95)) := by
  have hInv := inv_foldl m lines (initRound w) (inv_init m w)
  have hsec : (List.foldl (step m) (initRound w) lines).secretWord = w :=
    foldl_secret m lines (initRound w)
  refine ⟨hsec, ?_, ?_⟩
  · rw [hInv.lenEq, hsec]
  · intro i hi
    have hd := hInv.dispEq i (by rw [hsec]; exact hi)
    rw [hsec] at hd
    have hWl := isLowerC_iff.mp (hW _ (getD_mem_of_lt hi))
    constructor
    · constructor
      · intro hshow
        by_contra hmem
        rw [if_neg hmem] at hd
        rw [hd] at hshow
        omega
      · intro hmem
        rw [hd, if_pos hmem]
    · intro hmem
      rw [hd, if_neg hmem]

/-- Witness for C3: secret `"cat"`, one guess `a`: length 3, position 1
shows `a` since `a` was guessed, position 0 still the placeholder. -/
theorem claim3_witness :
    (List.foldl (step 6) (initRound (strBytes "cat")) [[97]]).displayWord.length
        = (strBytes "cat").length ∧
    (List.foldl (step 6) (initRound (strBytes "cat")) [[97]]).displayWord.getD 0 0 = 95 := by
  have h := claim3_reveal_pattern_invariant (strBytes "cat") 6 [[97]] (by decide)
  exact ⟨h.2.1, (h.2.2 0 (by decide)).2 (by decide)⟩

/-- C4: guess normalization fails with the format error unless the trimmed
line is exactly one character, fails with the letter error unless that
character case-folds to `a`..`z`, and otherwise returns the lowercased
letter (lowercase unchanged, uppercase shifted by 32). -/
theorem claim4_normalize_guess_spec (line : List Nat) :
    (line.length ≠ 1 → normalizeGuess line = .error .invalidFormat) ∧
    (∀ c, line = [c] → isLowerC (toLowerC c) = false →
      normalizeGuess line = .error .invalidLetter) ∧
    (∀ c, line = [c] → isLowerC c = true → normalizeGuess line = .ok c) ∧
    (∀ c, line = [c] → isUpperC c = true → normalizeGuess line = .ok (c + 32)) := by
  refine ⟨?_, ?_, ?_, ?_⟩
  · intro h
    rw [normalizeGuess, if_pos h]
  · intro c hline hlow
    subst hline
    rw [normalizeGuess_single, isAlphaC_toLowerC, hlow]
    rw [if_neg (by simp)]
  · intro c hline hlowc
    subst hline
    exact normalizeGuess_of_lower hlowc
  · intro c hline hup
    subst hline
    have hl32 : isLowerC (c + 32) = true := by
      have := isLowerC_toLowerC_of_upper hup
      rwa [toLowerC_of_upper hup] at this
    rw [normalizeGuess_single, toLowerC_of_upper hup]
    rw [if_pos (isAlphaC_of_lower hl32)]

/-- Witness for C4: empty input is a format error, `'5'` is a letter
error, `'A'` is accepted and folded to `'a'` (byte 97). -/
theorem claim4_witness :
    normalizeGuess ([] : List Nat) = .error .invalidFormat ∧
    normalizeGuess [53] = .error .invalidLetter ∧
    normalizeGuess [65] = .ok 97 := by
  refine ⟨(claim4_normalize_guess_spec ([] : List Nat)).1 (by decide),
    (claim4_normalize_guess_spec [53]).2.1 53 rfl (by decide), ?_⟩
  exact (claim4_normalize_guess_spec [65]).2.2.2 65 rfl (by decide)

/-- C5: every erroneous turn (format, letter or duplicate error) leaves
the round state exactly as it was, and re-submitting an already-guessed
letter always produces the duplicate error with no state change. -/
theorem claim5_errors_leave_state_unchanged (m : Nat) (st : RoundState) (line : List Nat) :
    (∀ e, (processTurn m st line).2 = some e → (processTurn m st line).1 = st) ∧
    (∀ c, isLowerC c = true → c ∈ st.guessedLetters →
      processTurn m st [c] = (st, some .duplicateGuess)) := by
  constructor
  · intro e he
    cases hn : normalizeGuess line with
    | error e2 => rw [processTurn, hn]
    | ok c =>
      rw [processTurn, hn] at he ⊢
      dsimp only at he ⊢
      by_cases hdup : c ∈ st.guessedLetters
      · rw [if_pos hdup]
      · rw [if_neg hdup] at he
        exact absurd he (by simp)
  · intro c hlc hdup
    rw [processTurn, normalizeGuess_of_lower hlc]
    dsimp only
    rw [if_pos hdup]

/-- Witness for C5: with `a` already guessed against `"cat"`, guessing `a`
again yields the duplicate error and the state is returned unchanged. -/
theorem claim5_witness :
    processTurn 6
      { secretWord := strBytes "cat", displayWord := [95, 97, 95], guessedLetters := [97],
        incorrectGuesses := 0, gameOver := false, playerWon := false } [97] =
      ({ secretWord := strBytes "cat", displayWord := [95, 97, 95], guessedLetters := [97],
         incorrectGuesses := 0, gameOver := false, playerWon := false },
        some .duplicateGuess) :=
  (claim5_errors_leave_state_unchanged 6
    { secretWord := strBytes "cat", displayWord := [95, 97, 95], guessedLetters := [97],
      incorrectGuesses := 0, gameOver := false, playerWon := false } [97]).2 97
    (by decide) (by decide)

/-- C6: difficulty parsing maps `1`, `2`, `3` to 8, 6, 4 allowed mistakes
respectively, and any other line (failed parse or out-of-range number)
falls to the default arm selecting Medium (6); in particular the line
`"banana"` yields 6. -/
theorem claim6_difficulty_selection (line : List Nat) :
    (parseCInt line = some 1 → selectDifficulty line = 8) ∧
    (parseCInt line = some 2 → selectDifficulty line = 6) ∧
    (parseCInt line = some 3 → selectDifficulty line = 4) ∧
    (parseCInt line = none → selectDifficulty line = 6) ∧
    (∀ n : Int, parseCInt line = some n → n ≠ 1 → n ≠ 2 → n ≠ 3 →
      selectDifficulty line = 6) ∧
    selectDifficulty (strBytes "banana") = 6 := by
  refine ⟨?_, ?_, ?_, ?_, ?_, by decide⟩
  · intro h
    rw [selectDifficulty, h]
    decide
  · intro h
    rw [selectDifficulty, h]
    decide
  · intro h
    rw [selectDifficulty, h]
    decide
  · intro h
    rw [selectDifficulty, h]
  · intro n h h1 h2 h3
    rw [selectDifficulty, h]
    dsimp only
    rw [if_neg h1, if_neg h2, if_neg h3]

/-- Witness for C6: `"1"` selects Easy (8 mistakes) and `"banana"`
defaults to Medium (6 mistakes). -/
theorem claim6_witness :
    selectDifficulty (strBytes "1") = 8 ∧ selectDifficulty (strBytes "banana") = 6 :=
  ⟨(claim6_difficulty_selection (strBytes "1")).1 (by decide),
    (claim6_difficulty_selection (strBytes "banana")).2.2.2.2.2⟩

/-- C7: if end-of-input hits the guess loop, the round ends at once in a
state that is neither a win (`playerWon` false) nor a loss (mistakes below
the maximum), and the session plays no further round; at the play-again
prompt, end-of-input or a response not starting with `y`/`Y` ends the
session, while a response starting with `y`/`Y` starts the next round. -/
theorem claim7_eof_and_replay (pick : Nat → List Nat) (k : Nat) (dline : List Nat)
    (rest : List (List Nat)) :
    ((roundLoop (selectDifficulty dline) (initRound (pick k)) (rest.drop 1)).2.2 = true →
      sessionLoop pick k (dline :: rest) =
        [((roundLoop (selectDifficulty dline) (initRound (pick k)) (rest.drop 1)).1, true)] ∧
      (roundLoop (selectDifficulty dline) (initRound (pick k)) (rest.drop 1)).1.gameOver
          = true ∧
      (roundLoop (selectDifficulty dline) (initRound (pick k)) (rest.drop 1)).1.playerWon
          = false ∧
      (roundLoop (selectDifficulty dline) (initRound (pick k)) (rest.drop 1)).1.incorrectGuesses
          < selectDifficulty dline) ∧
    ((roundLoop (selectDifficulty dline) (initRound (pick k)) (rest.drop 1)).2.1 = [] →
      sessionLoop pick k (dline :: rest) =
        [((roundLoop (selectDifficulty dline) (initRound (pick k)) (rest.drop 1)).1,
          (roundLoop (selectDifficulty dline) (initRound (pick k)) (rest.drop 1)).2.2)]) ∧
    (∀ p r3,
      (roundLoop (selectDifficulty dline) (initRound (pick k)) (rest.drop 1)).2.1 = p :: r3 →
      yesResponse p = false →
      sessionLoop pick k (dline :: rest) =
        [((roundLoop (selectDifficulty dline) (initRound (pick k)) (rest.drop 1)).1,
          (roundLoop (selectDifficulty dline) (initRound (pick k)) (rest.drop 1)).2.2)]) ∧
    (∀ p r3,
      (roundLoop (selectDifficulty dline) (initRound (pick k)) (rest.drop 1)).2.1 = p :: r3 →
      yesResponse p = true →
      sessionLoop pick k (dline :: rest) =
        ((roundLoop (selectDifficulty dline) (initRound (pick k)) (rest.drop 1)).1,
          (roundLoop (selectDifficulty dline) (initRound (pick k)) (rest.drop 1)).2.2)
          :: sessionLoop pick (k + 1) r3) := by
  have hfacts := roundLoop_facts (selectDifficulty dline) (initRound (pick k)) (rest.drop 1)
    (inv_init _ _)
  refine ⟨?_, ?_, ?_, ?_⟩
  · intro hab
    obtain ⟨hrest, hgo, hpw, hmlt⟩ := hfacts.2.2 hab
    refine ⟨?_, hgo, hpw, hmlt (selectDifficulty_pos dline)⟩
    rw [sessionLoop.eq_2, dif_pos hrest, hab]
  · intro hrest
    rw [sessionLoop.eq_2, dif_pos hrest]
  · intro p r3 hrest hno
    rw [sessionLoop.eq_2, dif_neg (by rw [hrest]; simp), hrest, List.headD_cons, hno]
    rw [if_neg (by simp)]
  · intro p r3 hrest hyes
    rw [sessionLoop.eq_2, dif_neg (by rw [hrest]; simp), hrest, List.headD_cons, hyes,
      if_pos rfl, List.tail_cons]

/-- Witness for C7: difficulty `"2"` followed by immediate end-of-input:
the round is abandoned with no win and no loss and the session result is
that single abandoned round. -/
theorem claim7_witness :
    sessionLoop (fun _ => strBytes "cat") 0 [strBytes "2"] =
      [((roundLoop (selectDifficulty (strBytes "2")) (initRound (strBytes "cat"))
          (List.drop 1 ([] : List (List Nat)))).1, true)] ∧
    (roundLoop (selectDifficulty (strBytes "2")) (initRound (strBytes "cat"))
        (List.drop 1 ([] : List (List Nat)))).1.playerWon = false := by
  have h := (claim7_eof_and_replay (fun _ => strBytes "cat") 0 (strBytes "2") []).1 (by decide)
  exact ⟨h.1, h.2.2.1⟩

/-- C8: in the first embedded program `playerWon` starts at 0 and is never
assigned, so on every input sequence the final state still has
`playerWon = false` and the loss message is printed, even when the whole
word has been revealed. -/
theorem claim8_first_program_never_wins (w : List Nat) (input : List (List Nat)) :
    (roundLoop1 (initRound w) input).1.playerWon = false ∧
    finalMsg (roundLoop1 (initRound w) input).1 = .lostMsg := by
  have hpw : (roundLoop1 (initRound w) input).1.playerWon = false := by
    rw [roundLoop1_playerWon (initRound w) input]
    rfl
  refine ⟨hpw, ?_⟩
  rw [finalMsg, hpw]
  simp

/-- Witness for C8: guessing every letter of `"cat"` in the first program
still ends with the loss message. -/
theorem claim8_witness :
    finalMsg (roundLoop1 (initRound (strBytes "cat")) [[99], [97], [116]]).1 = .lostMsg :=
  (claim8_first_program_never_wins (strBytes "cat") [[99], [97], [116]]).2

/-- C9: if any position of the secret word is not a lowercase ASCII
letter, that position is never revealed (guesses are lowercased letters
compared by exact byte equality), so the display keeps a placeholder
there and the round can never end as Won. -/
theorem claim9_nonlowercase_secret_never_won (w : List Nat) (m : Nat)
    (lines : List (List Nat)) (i : Nat) (hi : i < w.length)
    (hbad : isLowerC (w.getD i 0) = false) :
    (roundLoop m (initRound w) lines).1.displayWord.getD i 0 = 95 ∧
    (roundLoop m (initRound w) lines).1.playerWon = false := by
  obtain ⟨hInv, hsec, -⟩ := roundLoop_facts m (initRound w) lines (inv_init m w)
  have hsec' : (roundLoop m (initRound w) lines).1.secretWord = w := hsec
  have hi' : i < (roundLoop m (initRound w) lines).1.secretWord.length := by
    rw [hsec']
    exact hi
  have hd := hInv.dispEq i hi'
  rw [hsec'] at hd
  have hnm : w.getD i 0 ∉ (roundLoop m (initRound w) lines).1.guessedLetters := by
    intro hmem
    exact absurd (hInv.lower _ hmem) (by rw [hbad]; simp)
  rw [if_neg hnm] at hd
  refine ⟨hd, ?_⟩
  by_contra hpw
  have hpw' : (roundLoop m (initRound w) lines).1.playerWon = true := by
    revert hpw
    cases (roundLoop m (initRound w) lines).1.playerWon <;> simp
  apply hInv.wonClean hpw'
  have hlen : i < (roundLoop m (initRound w) lines).1.displayWord.length := by
    rw [hInv.lenEq, hsec']
    exact hi
  rw [← hd]
  exact getD_mem_of_lt hlen

/-- Witness for C9: secret `"Cat"` (uppercase `C`): after guessing `a`,
position 0 is still the placeholder and the round is not won. -/
theorem claim9_witness :
    (roundLoop 6 (initRound (strBytes "Cat")) [[97]]).1.displayWord.getD 0 0 = 95 ∧
    (roundLoop 6 (initRound (strBytes "Cat")) [[97]]).1.playerWon = false :=
  claim9_nonlowercase_secret_never_won (strBytes "Cat") 6 [[97]] 0 (by decide) (by decide)

/-- C10: in every reachable round state the guessed letters are pairwise
distinct lowercase letters (a letter is appended only after the duplicate
check), so their number never exceeds 26 and the append of a letter plus
the terminator stays inside the 27-byte buffer. -/
theorem claim10_guessed_letters_bounded (m : Nat) (w : List Nat) (lines : List (List Nat)) :
    (List.foldl (step m) (initRound w) lines).guessedLetters.Nodup ∧
    (∀ c ∈ (List.foldl (step m) (initRound w) lines).guessedLetters, isLowerC c = true) ∧
    (List.foldl (step m) (initRound w) lines).guessedLetters.length ≤ 26 ∧
    (List.foldl (step m) (initRound w) lines).guessedLetters.length + 1 ≤ 27 := by
  have hInv := inv_foldl m lines (initRound w) (inv_init m w)
  have hlen := nodup_lower_length_le _ hInv.nodup hInv.lower
  exact ⟨hInv.nodup, hInv.lower, hlen, by omega⟩

/-- Witness for C10 after two distinct guesses against `"cat"`. -/
theorem claim10_witness :
    (List.foldl (step 6) (initRound (strBytes "cat")) [[97], [120]]).guessedLetters.Nodup ∧
    (List.foldl (step 6) (initRound (strBytes "cat")) [[97], [120]]).guessedLetters.length
      ≤ 26 := by
  have h := claim10_guessed_letters_bounded 6 (strBytes "cat") [[97], [120]]
  exact ⟨h.1, h.2.2.1⟩

end Hangman
